import Mathlib

/-!
Verification development for the `just-data-copier` transfer engine.

The Go sources are shallowly embedded: pure computations become Lean
functions over `Nat`/`Int`/`Rat` (Go `int64` values appearing here are
non-negative sizes and offsets unless noted, `float64` arithmetic is
modelled exactly over `Rat`), stateful loops become explicit state passing
or trace-producing recursions, and fallible operations return `Option` or
a dedicated result type.  Each definition cites the Go function it embeds.
-/

namespace JDC

/-! ## Chunk grid (server.go `handleFileTransfer` / client.go `handleChunkRequest`) -/

/-- Embeds `numChunks := (fileSize + cfg.ChunkSize - 1) / cfg.ChunkSize`
(server.go, `handleFileTransfer`).  For positive `int64` inputs Go's
truncating division agrees with `Nat` division. -/
def numChunks (fileSize chunkSize : ℕ) : ℕ :=
  (fileSize + chunkSize - 1) / chunkSize

/-- The absolute byte range covered by chunk `i`:
`[i*chunkSize, min ((i+1)*chunkSize) fileSize)`, as written by the server
(`receiveChunk` writes at `offset = chunkIdx * cfg.ChunkSize`) and read by
the client (`handleChunkRequest` truncates the final chunk at `fileSize`). -/
def chunkRange (fileSize chunkSize i : ℕ) : Finset ℕ :=
  Finset.Ico (i * chunkSize) (min ((i + 1) * chunkSize) fileSize)

/-- Embeds the client's chunk-length computation (client.go,
`handleChunkRequest`): `actualChunkSize := cfg.ChunkSize; if offset +
cfg.ChunkSize > stats.FileSize { actualChunkSize = stats.FileSize - offset }`.
Values are `int64` in Go, so the embedding uses `ℤ`. -/
def clientActualChunkSize (chunkSize fileSize offset : ℤ) : ℤ :=
  if offset + chunkSize > fileSize then fileSize - offset else chunkSize

/-! ## Hash algorithm selection (protocol part `LargeFileSizeThreshold`,
filesystem `SelectHashAlgorithm`) -/

/-- The three wire tokens of `protocol.HashAlgorithm`. -/
inductive HashAlgorithm where
  | md5
  | sha256
  | blake2b
deriving DecidableEq, Repr

/-- Embeds `LargeFileSizeThreshold = 50 * 1024 * 1024 * 1024` (protocol
package). -/
def LargeFileSizeThreshold : ℤ := 50 * 1024 * 1024 * 1024

/-- Modelled from the spec: the body of `filesystem.SelectHashAlgorithm` is
not among the provided sources (only its test `TestSelectHashAlgorithm`,
documentation, and the caller `verifyFileHash` are).  Spec §4.4:
`select_algorithm(file_size)` uses the 50 GiB threshold, `< 50*2^30` gives
md5, otherwise blake2b; the repository's test pins md5 at 49 GiB and
blake2b at exactly 50 GiB, matching this definition. -/
def SelectHashAlgorithm (fileSize : ℤ) : HashAlgorithm :=
  if fileSize < LargeFileSizeThreshold then .md5 else .blake2b

/-! ## Resume state adoption (filesystem.go `TransferState`,
server.go `tryResumeTransfer`) -/

/-- Embeds `filesystem.TransferState` (the JSON resume snapshot).  The
`last_modified` and `version` fields play no role in the compatibility
check and are omitted. -/
structure TransferState where
  filename : String
  fileSize : ℤ
  chunkSize : ℤ
  numChunks : ℤ
  chunksReceived : List Bool
deriving DecidableEq, Repr

/-- The fresh all-false state built in both fallback branches of
`tryResumeTransfer`. -/
def freshTransferState (filename : String) (fileSize chunkSize numChunks : ℤ) :
    TransferState :=
  { filename := filename
    fileSize := fileSize
    chunkSize := chunkSize
    numChunks := numChunks
    chunksReceived := List.replicate numChunks.toNat false }

/-- Embeds server.go `tryResumeTransfer`.  `loaded` is the result of
`filesystem.LoadTransferState` (`none` models a missing or unreadable
state file).  The compatibility check compares the stored `FileSize` with
the announced size, the stored `ChunkSize` with the configured size, and
`len(state.ChunksReceived)` with `numChunks`. -/
def tryResumeTransfer (loaded : Option TransferState) (filename : String)
    (cfgChunkSize fileSize numChunks : ℤ) : TransferState × Bool :=
  match loaded with
  | none => (freshTransferState filename fileSize cfgChunkSize numChunks, false)
  | some state =>
    if state.fileSize = fileSize ∧ state.chunkSize = cfgChunkSize ∧
        (state.chunksReceived.length : ℤ) = numChunks then
      (state, true)
    else
      (freshTransferState filename fileSize cfgChunkSize numChunks, false)

/-! ## Adaptive rate controller (network package `NetworkStats`) -/

/-- Go's conversion of a non-negative-or-negative `float64` to an integer
type truncates toward zero; over `ℚ` that is floor for non-negative values
and ceiling for negative ones. -/
def truncQ (q : ℚ) : ℤ :=
  if 0 ≤ q then ⌊q⌋ else ⌈q⌉

/-- Embeds `network.NetworkStats`.  `float64` fields are modelled over `ℚ`
(the controller's constants 0.7, 0.3, 1.2, 0.8, 0.1 and 10 are exact
decimals); durations (`time.Duration`, int64 nanoseconds) are `ℤ`.
`LastChunkTime` is replaced by passing each observation's measured
duration explicitly, since wall-clock time has no shallow embedding. -/
structure NetworkStats where
  lastChunkSize : ℤ
  avgTransferRate : ℚ
  delayMultiplier : ℚ
  minDelay : ℤ
  maxDelay : ℤ
deriving DecidableEq, Repr

/-- Embeds `config.DefaultMinDelay = 1 * time.Millisecond` in nanoseconds. -/
def DefaultMinDelay : ℤ := 1000000

/-- Embeds `config.DefaultMaxDelay = 100 * time.Millisecond` in
nanoseconds. -/
def DefaultMaxDelay : ℤ := 100000000

/-- Embeds `network.NewNetworkStats`: the multiplier starts at 1.0 and the
bounds come from the config only when `AdaptiveDelay` is enabled,
otherwise the defaults are used. -/
def NewNetworkStats (adaptiveDelay : Bool) (cfgMinDelay cfgMaxDelay : ℤ) :
    NetworkStats :=
  { lastChunkSize := 0
    avgTransferRate := 0
    delayMultiplier := 1
    minDelay := if adaptiveDelay then cfgMinDelay else DefaultMinDelay
    maxDelay := if adaptiveDelay then cfgMaxDelay else DefaultMaxDelay }

/-- Embeds `NetworkStats.UpdateStats`.  `duration` is the elapsed time
since the previous chunk (nanoseconds, as a rational so that
`duration.Seconds()` and the rate division stay exact); the whole update
is guarded by `duration > 0` as in the source.  The average is updated
first and the multiplier comparison reads the updated average, exactly as
the Go code mutates `ns.AvgTransferRate` before comparing against it. -/
def UpdateStats (ns : NetworkStats) (chunkSize : ℤ) (duration : ℚ) :
    NetworkStats :=
  if 0 < duration then
    let currentRate : ℚ := (chunkSize : ℚ) / (duration / 1000000000)
    let avg : ℚ := updatedAverage ns.avgTransferRate currentRate
    let m : ℚ :=
      clampMultiplier (adjustedMultiplier ns.delayMultiplier currentRate avg)
    { ns with lastChunkSize := chunkSize, avgTransferRate := avg,
              delayMultiplier := m }
  else
    { ns with lastChunkSize := chunkSize }
where
  /-- The exponential moving average block of `UpdateStats`. -/
  updatedAverage (avgTransferRate currentRate : ℚ) : ℚ :=
    if avgTransferRate = 0 then currentRate
    else 0.7 * avgTransferRate + 0.3 * currentRate
  /-- The delay-multiplier adjustment block of `UpdateStats` (it compares
  against the already-updated average, as the Go code does). -/
  adjustedMultiplier (delayMultiplier currentRate avg : ℚ) : ℚ :=
    if currentRate < 0.7 * avg then delayMultiplier * 1.2
    else if currentRate > 1.2 * avg then delayMultiplier * 0.8
    else delayMultiplier
  /-- The "keep multiplier in reasonable bounds" block of `UpdateStats`. -/
  clampMultiplier (m : ℚ) : ℚ :=
    if m < 0.1 then 0.1 else if m > 10 then 10 else m

/-- The first bound of `GetDelay`: `if delay < ns.minDelay { delay =
ns.minDelay }`. -/
def applyMinBound (minDelay delay : ℤ) : ℤ :=
  if delay < minDelay then minDelay else delay

/-- The second bound of `GetDelay`: `if delay > ns.maxDelay { delay =
ns.maxDelay }`. -/
def applyMaxBound (maxDelay delay : ℤ) : ℤ :=
  if delay > maxDelay then maxDelay else delay

/-- Embeds `NetworkStats.GetDelay`: scale the base delay by the
multiplier (a `float64` product converted back to `time.Duration`), then
clamp below at `minDelay` and above at `maxDelay`. -/
def GetDelay (ns : NetworkStats) (baseDelay : ℤ) : ℤ :=
  applyMaxBound ns.maxDelay
    (applyMinBound ns.minDelay (truncQ ((baseDelay : ℚ) * ns.delayMultiplier)))

/-- Folding a whole observation sequence through `UpdateStats`. -/
def runUpdates (ns : NetworkStats) (obs : List (ℤ × ℚ)) : NetworkStats :=
  obs.foldl (fun s o => UpdateStats s o.1 o.2) ns

/-! ## Per-chunk pacing paths (server.go `processChunks`,
client.go `handleChunkRequest`) -/

/-- Embeds the pacing block of server.go `processChunks`: when
`cfg.AdaptiveDelay` is set the server sleeps `GetDelay(cfg.ChunkDelay)`,
otherwise it sleeps `cfg.ChunkDelay` verbatim when positive and not at
all otherwise.  The returned value is the duration actually slept. -/
def serverChunkDelay (adaptiveDelay : Bool) (chunkDelay : ℤ)
    (ns : NetworkStats) : ℤ :=
  if adaptiveDelay then GetDelay ns chunkDelay
  else if chunkDelay > 0 then chunkDelay else 0

/-- Embeds the pacing block of client.go `handleChunkRequest`: the client
consults `GetDelay` unconditionally — there is no `cfg.AdaptiveDelay`
test on this path — and sleeps the result when positive.  The returned
value is the duration actually slept. -/
def clientChunkDelay (chunkDelay : ℤ) (ns : NetworkStats) : ℤ :=
  if GetDelay ns chunkDelay > 0 then GetDelay ns chunkDelay else 0

/-! ## Network profiler (network package `ProfileNetwork`) -/

/-- Embeds the RTT-based bandwidth table of `ProfileNetwork` (RTT in
nanoseconds, bandwidth in bytes per second). -/
def estimateBandwidth (rtt : ℤ) : ℤ :=
  if rtt < 10 * 1000000 then 50 * 1024 * 1024
  else if rtt < 50 * 1000000 then 20 * 1024 * 1024
  else if rtt < 100 * 1000000 then 10 * 1024 * 1024
  else 5 * 1024 * 1024

/-- Embeds `bdp := float64(profile.Bandwidth) * profile.RTT.Seconds();
optimalChunkSize := int64(bdp)` of `ProfileNetwork`. -/
def bdpChunkSize (rtt : ℤ) : ℤ :=
  truncQ ((estimateBandwidth rtt : ℚ) * ((rtt : ℚ) / 1000000000))

/-- Embeds the two limit checks of `ProfileNetwork` (minimum 512 KiB,
maximum 8 MiB) applied to the bandwidth-delay product. -/
def preClampChunkSize (rtt : ℤ) : ℤ :=
  applyMaxBound (8 * 1024 * 1024)
    (applyMinBound (512 * 1024) (bdpChunkSize rtt))

/-- Embeds the final high-latency adjustment of `ProfileNetwork`:
`increase := int64(float64(ocs) * 1.5); if increase <= 8*1024*1024 {
ocs = increase }` — the multiplication is applied only when its result
stays at most 8 MiB, otherwise the chunk size is left unchanged. -/
def ProfileNetworkChunkSize (rtt : ℤ) : ℤ :=
  if rtt > 50 * 1000000 then
    if truncQ ((preClampChunkSize rtt : ℚ) * 1.5) ≤ 8 * 1024 * 1024 then
      truncQ ((preClampChunkSize rtt : ℚ) * 1.5)
    else preClampChunkSize rtt
  else preClampChunkSize rtt

/-- The chunk-size recommendation as the claim words it: the clamped
bandwidth-delay product "multiplied by 1.5 with the product capped at
8 MiB" when RTT exceeds 50 ms.  Stated only for comparison with
`ProfileNetworkChunkSize`, which embeds the code. -/
def specOptimalChunkSize (rtt : ℤ) : ℤ :=
  if rtt > 50 * 1000000 then
    min (truncQ ((preClampChunkSize rtt : ℚ) * 1.5)) (8 * 1024 * 1024)
  else preClampChunkSize rtt

/-! ## Per-chunk decompression (compression package `DecompressData`,
server.go `receiveCompressedChunk`) -/

/-- Embeds `compression.DecompressData`.  The gzip format itself has no
shallow embedding, so `decode` abstracts `gzip.NewReader` plus reading:
it maps the compressed bytes to the full decompressed stream, or `none`
when the stream is corrupt.  The code pre-allocates a buffer of
`expectedSize` bytes and fills it with `io.ReadFull`, which reads
`min (stream length, expectedSize)` bytes; the `io.EOF` and
`io.ErrUnexpectedEOF` outcomes of a short stream are explicitly
tolerated, and `buffer[:n]` is returned.  The result is therefore the
decompressed stream truncated to `expectedSize` bytes, whatever the
stream's actual length. -/
def DecompressData (decode : List ℕ → Option (List ℕ))
    (compressedData : List ℕ) (expectedSize : ℕ) : Option (List ℕ) :=
  match decode compressedData with
  | none => none
  | some d => some (d.take expectedSize)

/-- Embeds server.go `receiveCompressedChunk` after the compressed bytes
are off the wire: it forwards to `DecompressData` and returns whatever
that yields; `receiveChunk` then writes any returned bytes at the
chunk's offset.  No size-equality check appears on this path. -/
def receiveCompressedChunk (decode : List ℕ → Option (List ℕ))
    (compressedData : List ℕ) (expectedSize : ℕ) : Option (List ℕ) :=
  DecompressData decode compressedData expectedSize

/-! ## Hash handshake failure (server.go `verifyFileHash` and the
verification tail of `handleFileTransfer`) -/

/-- The exact mismatch message of `verifyFileHash`:
`fmt.Sprintf("Hash mismatch (%s): source=%s, received=%s", ...)`. -/
def hashMismatchMessage (algo sourceHash receivedHash : String) : String :=
  "Hash mismatch (" ++ algo ++ "): source=" ++ sourceHash ++
    ", received=" ++ receivedHash

/-- Observable outcome of the tail of `handleFileTransfer` (everything
after `processChunks` succeeds): the error frames sent, whether the
output file was deleted, whether the transfer-state file was removed,
and whether `Complete` was sent. -/
structure TransferTailResult where
  errorFrames : List String
  outputDeleted : Bool
  stateFileRemoved : Bool
  completeSent : Bool
deriving DecidableEq, Repr

/-- Embeds `verifyFileHash` + the tail of `handleFileTransfer`, given the
hash the client sent and the hash the server computed over the written
file.  On mismatch `verifyFileHash` sends the exact mismatch `Error`
frame and returns a validation error; `handleFileTransfer` then deletes
the output file, sends a generic "Hash verification failed" `Error`
frame, and returns — before reaching `RemoveTransferState`, so the state
file stays on disk.  On success (or when verification is skipped) the
state file is removed and `Complete` is sent. -/
def handleFileTransferTail (shouldVerifyHash : Bool)
    (algo clientHash serverHash : String) : TransferTailResult :=
  if shouldVerifyHash then
    if clientHash ≠ serverHash then
      { errorFrames := [hashMismatchMessage algo clientHash serverHash,
          "Hash verification failed"]
        outputDeleted := true
        stateFileRemoved := false
        completeSent := false }
    else
      { errorFrames := []
        outputDeleted := false
        stateFileRemoved := true
        completeSent := true }
  else
    { errorFrames := []
      outputDeleted := false
      stateFileRemoved := true
      completeSent := true }

/-! ## Resume frame parsing (protocol package `ReadResumeInfo`) -/

/-- Embeds `protocol.ResumeInfo`. -/
structure ResumeInfo where
  canResume : Bool
  resumeOffset : ℤ
  totalChunks : ℤ
  completedChunks : List Bool
deriving DecidableEq, Repr

/-- Outcome of `ReadResumeInfo` on a frame whose numeric lines parse: a
returned `ResumeInfo`, or a runtime panic (Go's `make([]bool, n)` panics
for negative `n`). -/
inductive ReadResumeResult where
  | ok (info : ResumeInfo)
  | panicked
deriving DecidableEq, Repr

/-- Discriminator for `ReadResumeResult`. -/
def ReadResumeResult.isOk : ReadResumeResult → Bool
  | .ok _ => true
  | .panicked => false

/-- The digit-accumulation loop underlying decimal parsing. -/
def parseDigits (cs : List Char) : ℕ :=
  cs.foldl (fun a c => 10 * a + (c.toNat - 48)) 0

/-- Embeds `strconv.ParseInt(s, 10, 64)`: an optional sign, then at
least one decimal digit, with the value required to fit in a signed
64-bit integer; anything else is a parse error. -/
def parseInt64 (s : String) : Option ℤ :=
  let cs := s.toList
  let signDigits : ℤ × List Char :=
    match cs with
    | '+' :: rest => (1, rest)
    | '-' :: rest => (-1, rest)
    | _ => (1, cs)
  if signDigits.2 = [] then none
  else if signDigits.2.all (fun c => c.isDigit) then
    let v : ℤ := signDigits.1 * (parseDigits signDigits.2 : ℤ)
    if -(2 ^ 63) ≤ v ∧ v ≤ 2 ^ 63 - 1 then some v else none
  else none

/-- Embeds one iteration of the completed-chunks loop of
`ReadResumeInfo`: trim the entry, parse it, and set the bitmap index
only when parsing succeeds and the index lies in `[0, totalChunks)`;
malformed or out-of-range entries are silently skipped. -/
def markCompleted (totalChunks : ℤ) (acc : List Bool) (entry : String) :
    List Bool :=
  match parseInt64 entry.trim with
  | none => acc
  | some idx =>
    if 0 ≤ idx ∧ idx < totalChunks then acc.set idx.toNat true else acc

/-- Embeds `protocol.ReadResumeInfo` on a frame whose `can_resume` byte,
offset line, total-chunks line and chunk-list line have been read (the
claim's precondition that the numeric lines parse).  The Go code builds
`make([]bool, TotalChunks)` — a runtime panic when `TotalChunks` is
negative — and then walks `strings.Split(chunkListStr, ",")` unless the
list string is empty. -/
def ReadResumeInfo (canResumeByte : ℕ) (resumeOffset totalChunks : ℤ)
    (chunkListStr : String) : ReadResumeResult :=
  if canResumeByte = 1 then
    if totalChunks < 0 then .panicked
    else
      .ok { canResume := true
            resumeOffset := resumeOffset
            totalChunks := totalChunks
            completedChunks :=
              if chunkListStr ≠ "" then
                (chunkListStr.splitOn ",").foldl (markCompleted totalChunks)
                  (List.replicate totalChunks.toNat false)
              else List.replicate totalChunks.toNat false }
  else
    .ok { canResume := false, resumeOffset := 0, totalChunks := 0,
          completedChunks := [] }

/-! ## Chunk request discipline (server.go `processChunks`,
`receiveChunkWithRetries`, `receiveChunk`) -/

/-- The wire events the server's chunk loop produces, as seen on the
connection: a `Request` frame for an offset, a fully received `Data`
response, or a failed receive attempt for that offset. -/
inductive Event where
  | request (offset : ℕ)
  | dataReceived (offset : ℕ)
  | dataFailed (offset : ℕ)
deriving DecidableEq, Repr

/-- Embeds `receiveChunkWithRetries`: up to `fuel` attempts (Go's
`for retry := 0; retry < cfg.Retries; retry++`), each attempt being one
call to `receiveChunk`, which first sends `Request offset` and then
either receives the chunk's `Data` completely (success, loop returns) or
fails (the next iteration re-sends the same `Request`).  `outcome a`
abstracts whether attempt `a` succeeds.  Returns the event trace and
whether the chunk was eventually received. -/
def retryLoop (offset : ℕ) (outcome : ℕ → Bool) :
    ℕ → ℕ → List Event × Bool
  | _, 0 => ([], false)
  | attempt, fuel + 1 =>
    if outcome attempt then
      ([.request offset, .dataReceived offset], true)
    else
      let rest := retryLoop offset outcome (attempt + 1) fuel
      (.request offset :: .dataFailed offset :: rest.1, rest.2)

/-- Embeds the loop of `processChunks`, producing the trace of wire
events.  Iteration `i` checks `state.ChunksReceived[i]` (only indices
below the cursor are ever mutated, so this reads the loop-start value),
skips the chunk entirely when set, and otherwise runs
`receiveChunkWithRetries` at `offset = i * chunkSize`; a failure after
all retries aborts the whole loop. -/
def processChunksTrace (chunkSize retries : ℕ) (outcome : ℕ → ℕ → Bool) :
    ℕ → List Bool → List Event
  | _, [] => []
  | i, received :: rest =>
    if received then processChunksTrace chunkSize retries outcome (i + 1) rest
    else
      let r := retryLoop (i * chunkSize) (outcome i) 0 retries
      if r.2 then
        r.1 ++ processChunksTrace chunkSize retries outcome (i + 1) rest
      else r.1

/-- Adjacency discipline of the event trace: a `Request` is immediately
followed by its own completion (received or failed), a failed receive is
followed only by a retry `Request` at the same offset, and a successful
receive is followed only by a `Request` at a strictly larger offset. -/
def eventStep : Event → Event → Prop
  | .request o, .dataReceived p => p = o
  | .request o, .dataFailed p => p = o
  | .request _, .request _ => False
  | .dataFailed o, .request p => p = o
  | .dataFailed _, .dataReceived _ => False
  | .dataFailed _, .dataFailed _ => False
  | .dataReceived o, .request p => o < p
  | .dataReceived _, .dataReceived _ => False
  | .dataReceived _, .dataFailed _ => False

instance : DecidableRel eventStep := fun a b => by
  cases a <;> cases b <;> dsimp only [eventStep] <;> infer_instance


/-! ## Theorems -/

/-! ### Arithmetic facts about the chunk grid -/

theorem one_le_numChunks {f c : ℕ} (hf : 0 < f) (hc : 0 < c) :
    1 ≤ numChunks f c := by
  have h : 1 * c ≤ f + c - 1 := by omega
  exact (Nat.le_div_iff_mul_le hc).mpr h

theorem le_numChunks_mul {f c : ℕ} (hf : 0 < f) (hc : 0 < c) :
    f ≤ numChunks f c * c := by
  have h : numChunks f c * c + (f + c - 1) % c = f + c - 1 :=
    Nat.div_add_mod' (f + c - 1) c
  have h2 : (f + c - 1) % c < c := Nat.mod_lt _ hc
  omega

theorem pred_numChunks_mul_lt {f c : ℕ} (hf : 0 < f) (hc : 0 < c) :
    (numChunks f c - 1) * c < f := by
  have hA : numChunks f c * c ≤ f + c - 1 := Nat.div_mul_le_self _ _
  have hN1 : 1 ≤ numChunks f c := one_le_numChunks hf hc
  have hB : (numChunks f c - 1) * c + 1 * c = numChunks f c * c := by
    rw [← Nat.add_mul]
    congr 1
    omega
  omega

theorem chunkRange_mem_div {f c x : ℕ} (hc : 0 < c) (hx : x < f) :
    x / c < numChunks f c ∧ x ∈ chunkRange f c (x / c) := by
  have hf : 0 < f := by omega
  constructor
  · have hfN : f ≤ numChunks f c * c := le_numChunks_mul hf hc
    exact (Nat.div_lt_iff_lt_mul hc).mpr (lt_of_lt_of_le hx hfN)
  · have h1 : x / c * c ≤ x := Nat.div_mul_le_self x c
    have h2 : c * (x / c) + x % c = x := Nat.div_add_mod x c
    have h3 : x % c < c := Nat.mod_lt _ hc
    have h4 : (x / c + 1) * c = c * (x / c) + c := by ring
    simp only [chunkRange, Finset.mem_Ico, lt_min_iff]
    omega

/-- C1: the chunk byte ranges `[i*chunkSize, min ((i+1)*chunkSize) fileSize)`
for `i < numChunks` are pairwise disjoint, their union is exactly
`[0, fileSize)`, every chunk except the final one has length `chunkSize`,
the final chunk has length `fileSize - (numChunks-1)*chunkSize`, and that
final length is exactly what the client computes when servicing a
`Request` at the last offset. -/
theorem chunk_grid_correct (f c : ℕ) (hf : 0 < f) (hc : 0 < c) :
    (∀ i j, i ≠ j → Disjoint (chunkRange f c i) (chunkRange f c j)) ∧
    (Finset.range (numChunks f c)).biUnion (chunkRange f c) = Finset.Ico 0 f ∧
    (∀ i, i + 1 < numChunks f c → (chunkRange f c i).card = c) ∧
    (chunkRange f c (numChunks f c - 1)).card = f - (numChunks f c - 1) * c ∧
    clientActualChunkSize (c : ℤ) (f : ℤ) (((numChunks f c - 1 : ℕ) : ℤ) * c) =
      (f : ℤ) - ((numChunks f c - 1 : ℕ) : ℤ) * c := by
  have hfN : f ≤ numChunks f c * c := le_numChunks_mul hf hc
  have hlast : (numChunks f c - 1) * c < f := pred_numChunks_mul_lt hf hc
  have hN1 : 1 ≤ numChunks f c := one_le_numChunks hf hc
  refine ⟨?_, ?_, ?_, ?_, ?_⟩
  · -- pairwise disjointness
    intro i j hij
    rcases Nat.lt_or_ge i j with h | h
    · refine Finset.disjoint_left.mpr ?_
      intro x hxi hxj
      simp only [chunkRange, Finset.mem_Ico, lt_min_iff] at hxi hxj
      have hij' : (i + 1) * c ≤ j * c := Nat.mul_le_mul_right c h
      omega
    · have hji : j < i := lt_of_le_of_ne h (Ne.symm hij)
      refine Finset.disjoint_left.mpr ?_
      intro x hxi hxj
      simp only [chunkRange, Finset.mem_Ico, lt_min_iff] at hxi hxj
      have hij' : (j + 1) * c ≤ i * c := Nat.mul_le_mul_right c hji
      omega
  · -- union is the whole interval
    ext x
    simp only [Finset.mem_biUnion, Finset.mem_range, Finset.mem_Ico, Nat.zero_le,
      true_and]
    constructor
    · rintro ⟨i, _, hx⟩
      simp only [chunkRange, Finset.mem_Ico, lt_min_iff] at hx
      exact hx.2.2
    · intro hx
      exact ⟨x / c, (chunkRange_mem_div hc hx).1, (chunkRange_mem_div hc hx).2⟩
  · -- non-final chunks have full length
    intro i hi
    have hle : (i + 1) * c ≤ (numChunks f c - 1) * c := by
      apply Nat.mul_le_mul_right
      omega
    have hmin : min ((i + 1) * c) f = (i + 1) * c := by
      apply Nat.min_eq_left
      omega
    rw [chunkRange, hmin, Nat.card_Ico]
    have hd : (i + 1) * c = i * c + c := by ring
    omega
  · -- final chunk length
    have hNc : (numChunks f c - 1 + 1) * c = numChunks f c * c := by
      congr 1
      omega
    have hmin : min ((numChunks f c - 1 + 1) * c) f = f := by
      apply Nat.min_eq_right
      omega
    rw [chunkRange, hmin, Nat.card_Ico]
  · -- the client computes the same final length
    have hZlast : ((numChunks f c - 1 : ℕ) : ℤ) * c < f := by
      exact_mod_cast hlast
    have hZfN : (f : ℤ) ≤ ((numChunks f c : ℕ) : ℤ) * c := by
      exact_mod_cast hfN
    have hZN : ((numChunks f c - 1 : ℕ) : ℤ) = (numChunks f c : ℤ) - 1 := by
      have : ((numChunks f c - 1 : ℕ) : ℤ) = (numChunks f c : ℤ) - (1 : ℕ) :=
        Int.ofNat_sub hN1
      simpa using this
    rw [clientActualChunkSize]
    split_ifs with h
    · rfl
    · have hEq : ((numChunks f c - 1 : ℕ) : ℤ) * c + c = (numChunks f c : ℤ) * c := by
        rw [hZN]; ring
      omega

/-- C1 witness: the grid invariant evaluated at `fileSize = 5`,
`chunkSize = 2` (three chunks, final one of length 1). -/
theorem chunk_grid_correct_witness :
    (0 < 5 ∧ 0 < 2) ∧
    ((∀ i j, i ≠ j → Disjoint (chunkRange 5 2 i) (chunkRange 5 2 j)) ∧
    (Finset.range (numChunks 5 2)).biUnion (chunkRange 5 2) = Finset.Ico 0 5 ∧
    (∀ i, i + 1 < numChunks 5 2 → (chunkRange 5 2 i).card = 2) ∧
    (chunkRange 5 2 (numChunks 5 2 - 1)).card = 5 - (numChunks 5 2 - 1) * 2 ∧
    clientActualChunkSize ((2 : ℕ) : ℤ) ((5 : ℕ) : ℤ)
        (((numChunks 5 2 - 1 : ℕ) : ℤ) * (2 : ℕ)) =
      ((5 : ℕ) : ℤ) - ((numChunks 5 2 - 1 : ℕ) : ℤ) * (2 : ℕ)) :=
  ⟨⟨by decide, by decide⟩, chunk_grid_correct 5 2 (by decide) (by decide)⟩

/-- C6: for every `int64` file size, the selection function returns `md5`
iff the size is below `50 * 2^30` bytes, returns `blake2b` otherwise, and
never returns `sha256`. -/
theorem selectHashAlgorithm_spec (s : ℤ) :
    (SelectHashAlgorithm s = .md5 ↔ s < 50 * 2 ^ 30) ∧
    (SelectHashAlgorithm s = .blake2b ↔ ¬ s < 50 * 2 ^ 30) ∧
    SelectHashAlgorithm s ≠ .sha256 := by
  have hthr : LargeFileSizeThreshold = 50 * 2 ^ 30 := by norm_num [LargeFileSizeThreshold]
  unfold SelectHashAlgorithm
  rw [hthr]
  split_ifs with h <;> simp [h] <;> omega

/-- C3: the server adopts a stored state (`resuming = true`) iff the
stored file size equals the announced one, the stored chunk size equals
the configured one, and the stored bitmap length equals
`numChunks = ceil(fileSize / chunkSize)`; in every other case the result
is a fresh all-false bitmap of length `numChunks` with `resuming = false`.
(`fileSize`, `chunkSize` positive as validated by `handleFileTransfer`.) -/
theorem tryResumeTransfer_spec (loaded : Option TransferState)
    (filename : String) (fileSize chunkSize : ℕ)
    (_hf : 0 < fileSize) (_hc : 0 < chunkSize) :
    ((tryResumeTransfer loaded filename (chunkSize : ℤ) (fileSize : ℤ)
        ((numChunks fileSize chunkSize : ℕ) : ℤ)).2 = true ↔
      ∃ s, loaded = some s ∧ s.fileSize = (fileSize : ℤ) ∧
        s.chunkSize = (chunkSize : ℤ) ∧
        (s.chunksReceived.length : ℤ) = ((numChunks fileSize chunkSize : ℕ) : ℤ)) ∧
    ((tryResumeTransfer loaded filename (chunkSize : ℤ) (fileSize : ℤ)
        ((numChunks fileSize chunkSize : ℕ) : ℤ)).2 = true →
      loaded = some (tryResumeTransfer loaded filename (chunkSize : ℤ)
        (fileSize : ℤ) ((numChunks fileSize chunkSize : ℕ) : ℤ)).1) ∧
    ((tryResumeTransfer loaded filename (chunkSize : ℤ) (fileSize : ℤ)
        ((numChunks fileSize chunkSize : ℕ) : ℤ)).2 = false →
      (tryResumeTransfer loaded filename (chunkSize : ℤ) (fileSize : ℤ)
          ((numChunks fileSize chunkSize : ℕ) : ℤ)).1.chunksReceived =
        List.replicate (numChunks fileSize chunkSize) false) := by
  have hn : (((numChunks fileSize chunkSize : ℕ) : ℤ)).toNat =
      numChunks fileSize chunkSize := by simp
  rcases hL : loaded with _ | s
  · refine ⟨?_, ?_, fun _ => ?_⟩
    · simp [tryResumeTransfer]
    · simp [tryResumeTransfer]
    · simp [tryResumeTransfer, freshTransferState, hn]
  · by_cases hcompat : s.fileSize = (fileSize : ℤ) ∧ s.chunkSize = (chunkSize : ℤ) ∧
        (s.chunksReceived.length : ℤ) = ((numChunks fileSize chunkSize : ℕ) : ℤ)
    · have hlen : s.chunksReceived.length = numChunks fileSize chunkSize := by
        exact_mod_cast hcompat.2.2
      refine ⟨?_, fun _ => ?_, fun hfalse => ?_⟩
      · simp [tryResumeTransfer, hcompat.1, hcompat.2.1, hcompat.2.2, hlen]
      · simp [tryResumeTransfer, hcompat.1, hcompat.2.1, hcompat.2.2, hlen]
      · exfalso
        simp [tryResumeTransfer, hcompat.1, hcompat.2.1, hcompat.2.2, hlen] at hfalse
    · refine ⟨?_, fun htrue => ?_, fun _ => ?_⟩
      · simp only [tryResumeTransfer]
        rw [if_neg hcompat]
        simp only [Bool.false_eq_true, false_iff]
        rintro ⟨s', hs', h1, h2, h3⟩
        have hss : s' = s := by
          injection hs' with h
          exact h.symm
        subst hss
        exact hcompat ⟨h1, h2, h3⟩
      · exfalso
        simp only [tryResumeTransfer] at htrue
        rw [if_neg hcompat] at htrue
        exact Bool.false_ne_true htrue
      · simp only [tryResumeTransfer]
        rw [if_neg hcompat]
        simp [freshTransferState, hn]

/-- C3 witness: an incompatible stored state (wrong chunk size) for a
6-byte file with 4-byte chunks is discarded in favour of a fresh 2-chunk
bitmap. -/
theorem tryResumeTransfer_spec_witness :
    0 < 6 ∧ 0 < 4 ∧
    ((tryResumeTransfer
        (some { filename := "a.bin", fileSize := 6, chunkSize := 2,
                numChunks := 3, chunksReceived := [true, true, true] })
        "a.bin" ((4 : ℕ) : ℤ) ((6 : ℕ) : ℤ)
        ((numChunks 6 4 : ℕ) : ℤ)).2 = false ∧
      (tryResumeTransfer
        (some { filename := "a.bin", fileSize := 6, chunkSize := 2,
                numChunks := 3, chunksReceived := [true, true, true] })
        "a.bin" ((4 : ℕ) : ℤ) ((6 : ℕ) : ℤ)
        ((numChunks 6 4 : ℕ) : ℤ)).1.chunksReceived =
        List.replicate (numChunks 6 4) false) := by
  have h := tryResumeTransfer_spec
    (some { filename := "a.bin", fileSize := 6, chunkSize := 2,
            numChunks := 3, chunksReceived := [true, true, true] })
    "a.bin" 6 4 (by decide) (by decide)
  refine ⟨by decide, by decide, ?_, ?_⟩
  · decide
  · exact h.2.2 (by decide)

theorem clampMultiplier_mem (m : ℚ) :
    1 / 10 ≤ UpdateStats.clampMultiplier m ∧ UpdateStats.clampMultiplier m ≤ 10 := by
  unfold UpdateStats.clampMultiplier
  split_ifs with h1 h2
  · norm_num
  · norm_num
  · push_neg at h1 h2
    norm_num at h1 h2 ⊢
    exact ⟨h1, h2⟩

theorem UpdateStats_multiplier_mem (ns : NetworkStats) (chunkSize : ℤ)
    (duration : ℚ)
    (h : 1 / 10 ≤ ns.delayMultiplier ∧ ns.delayMultiplier ≤ 10) :
    1 / 10 ≤ (UpdateStats ns chunkSize duration).delayMultiplier ∧
      (UpdateStats ns chunkSize duration).delayMultiplier ≤ 10 := by
  unfold UpdateStats
  by_cases hd : 0 < duration
  · rw [if_pos hd]
    exact clampMultiplier_mem _
  · rw [if_neg hd]
    exact h

theorem UpdateStats_bounds_fixed (ns : NetworkStats) (chunkSize : ℤ)
    (duration : ℚ) :
    (UpdateStats ns chunkSize duration).minDelay = ns.minDelay ∧
      (UpdateStats ns chunkSize duration).maxDelay = ns.maxDelay := by
  unfold UpdateStats
  by_cases hd : 0 < duration
  · rw [if_pos hd]
    exact ⟨rfl, rfl⟩
  · rw [if_neg hd]
    exact ⟨rfl, rfl⟩

theorem runUpdates_multiplier_mem (obs : List (ℤ × ℚ)) (ns : NetworkStats)
    (h : 1 / 10 ≤ ns.delayMultiplier ∧ ns.delayMultiplier ≤ 10) :
    1 / 10 ≤ (runUpdates ns obs).delayMultiplier ∧
      (runUpdates ns obs).delayMultiplier ≤ 10 := by
  induction obs generalizing ns with
  | nil => exact h
  | cons o rest ih =>
    exact ih (UpdateStats ns o.1 o.2) (UpdateStats_multiplier_mem ns o.1 o.2 h)

theorem runUpdates_bounds_fixed (obs : List (ℤ × ℚ)) (ns : NetworkStats) :
    (runUpdates ns obs).minDelay = ns.minDelay ∧
      (runUpdates ns obs).maxDelay = ns.maxDelay := by
  induction obs generalizing ns with
  | nil => exact ⟨rfl, rfl⟩
  | cons o rest ih =>
    have hstep := UpdateStats_bounds_fixed ns o.1 o.2
    have htail := ih (UpdateStats ns o.1 o.2)
    exact ⟨htail.1.trans hstep.1, htail.2.trans hstep.2⟩

theorem GetDelay_mem (ns : NetworkStats) (baseDelay : ℤ)
    (h : ns.minDelay ≤ ns.maxDelay) :
    ns.minDelay ≤ GetDelay ns baseDelay ∧ GetDelay ns baseDelay ≤ ns.maxDelay := by
  unfold GetDelay applyMaxBound applyMinBound
  split_ifs <;> omega

/-- C7: starting from the initial controller state (multiplier 1.0), after
any sequence of `UpdateStats` observations the multiplier stays within
`[0.1, 10.0]`, and `GetDelay` of any base delay stays within
`[minDelay, maxDelay]` (the configured bounds satisfy `min ≤ max`, as
enforced by `Config.Validate`). -/
theorem adaptive_rate_bounds (adaptive : Bool) (cfgMinDelay cfgMaxDelay : ℤ)
    (obs : List (ℤ × ℚ)) (baseDelay : ℤ)
    (hcfg : cfgMinDelay ≤ cfgMaxDelay) :
    1 / 10 ≤ (runUpdates (NewNetworkStats adaptive cfgMinDelay cfgMaxDelay)
        obs).delayMultiplier ∧
    (runUpdates (NewNetworkStats adaptive cfgMinDelay cfgMaxDelay)
        obs).delayMultiplier ≤ 10 ∧
    (runUpdates (NewNetworkStats adaptive cfgMinDelay cfgMaxDelay)
        obs).minDelay ≤
      GetDelay (runUpdates (NewNetworkStats adaptive cfgMinDelay cfgMaxDelay)
        obs) baseDelay ∧
    GetDelay (runUpdates (NewNetworkStats adaptive cfgMinDelay cfgMaxDelay)
        obs) baseDelay ≤
      (runUpdates (NewNetworkStats adaptive cfgMinDelay cfgMaxDelay)
        obs).maxDelay := by
  set ns0 := NewNetworkStats adaptive cfgMinDelay cfgMaxDelay with hns0
  have hinit : 1 / 10 ≤ ns0.delayMultiplier ∧ ns0.delayMultiplier ≤ 10 := by
    rw [hns0]
    unfold NewNetworkStats
    norm_num
  have hmem := runUpdates_multiplier_mem obs ns0 hinit
  have hfix := runUpdates_bounds_fixed obs ns0
  have hminmax : (runUpdates ns0 obs).minDelay ≤ (runUpdates ns0 obs).maxDelay := by
    rw [hfix.1, hfix.2, hns0]
    unfold NewNetworkStats
    rcases adaptive with _ | _ <;> simp [DefaultMinDelay, DefaultMaxDelay, hcfg]
  have hdelay := GetDelay_mem (runUpdates ns0 obs) baseDelay hminmax
  exact ⟨hmem.1, hmem.2, hdelay.1, hdelay.2⟩

/-- C7 witness: two observations (a fast chunk then a stalled one) with
adaptive bounds `[2 ms, 50 ms]`; the multiplier and a 10 ms base delay
stay in bounds. -/
theorem adaptive_rate_bounds_witness :
    (2000000 : ℤ) ≤ 50000000 ∧
    (1 / 10 ≤ (runUpdates (NewNetworkStats true 2000000 50000000)
        [(1024, 1000000), (1024, 500000000)]).delayMultiplier ∧
    (runUpdates (NewNetworkStats true 2000000 50000000)
        [(1024, 1000000), (1024, 500000000)]).delayMultiplier ≤ 10 ∧
    (runUpdates (NewNetworkStats true 2000000 50000000)
        [(1024, 1000000), (1024, 500000000)]).minDelay ≤
      GetDelay (runUpdates (NewNetworkStats true 2000000 50000000)
        [(1024, 1000000), (1024, 500000000)]) 10000000 ∧
    GetDelay (runUpdates (NewNetworkStats true 2000000 50000000)
        [(1024, 1000000), (1024, 500000000)]) 10000000 ≤
      (runUpdates (NewNetworkStats true 2000000 50000000)
        [(1024, 1000000), (1024, 500000000)]).maxDelay) :=
  ⟨by decide,
   adaptive_rate_bounds true 2000000 50000000
     [(1024, 1000000), (1024, 500000000)] 10000000 (by decide)⟩

/-- C8 counterexample: with adaptive delay disabled and a configured base
chunk delay of zero, the client path sleeps `DefaultMinDelay` (1 ms), not
the base delay verbatim: `GetDelay` is still applied and clamps into the
default bounds. -/
theorem clientChunkDelay_not_verbatim :
    clientChunkDelay 0 (NewNetworkStats false 0 0) = 1000000 ∧
    (1000000 : ℤ) ≠ 0 := by
  constructor
  · norm_num [clientChunkDelay, GetDelay, truncQ, applyMinBound, applyMaxBound,
      NewNetworkStats, DefaultMinDelay, DefaultMaxDelay]
  · decide

/-- C8 (amended): with adaptive delay disabled, the server path applies
the configured base delay verbatim (for every non-negative base), but the
client path still applies `GetDelay` — the delay-multiplier product
clamped into the default bounds `[1 ms, 100 ms]` — after any observation
sequence, so the client delay equals the base only when that clamp is the
identity. -/
theorem chunk_delay_disabled_spec (cfgMinDelay cfgMaxDelay chunkDelay : ℤ)
    (obs : List (ℤ × ℚ)) (hbase : 0 ≤ chunkDelay) :
    serverChunkDelay false chunkDelay
      (runUpdates (NewNetworkStats false cfgMinDelay cfgMaxDelay) obs) =
        chunkDelay ∧
    clientChunkDelay chunkDelay
        (runUpdates (NewNetworkStats false cfgMinDelay cfgMaxDelay) obs) =
      GetDelay (runUpdates (NewNetworkStats false cfgMinDelay cfgMaxDelay) obs)
        chunkDelay ∧
    DefaultMinDelay ≤ clientChunkDelay chunkDelay
      (runUpdates (NewNetworkStats false cfgMinDelay cfgMaxDelay) obs) ∧
    clientChunkDelay chunkDelay
        (runUpdates (NewNetworkStats false cfgMinDelay cfgMaxDelay) obs) ≤
      DefaultMaxDelay := by
  set ns := runUpdates (NewNetworkStats false cfgMinDelay cfgMaxDelay) obs with hns
  have hfix := runUpdates_bounds_fixed obs (NewNetworkStats false cfgMinDelay cfgMaxDelay)
  have hmin : ns.minDelay = DefaultMinDelay := by
    rw [hns, hfix.1]
    rfl
  have hmax : ns.maxDelay = DefaultMaxDelay := by
    rw [hns, hfix.2]
    rfl
  have hmm : ns.minDelay ≤ ns.maxDelay := by
    rw [hmin, hmax]
    decide
  have hget := GetDelay_mem ns chunkDelay hmm
  have hpos : GetDelay ns chunkDelay > 0 := by
    have := hget.1
    rw [hmin] at this
    have hd : (0 : ℤ) < DefaultMinDelay := by decide
    omega
  refine ⟨?_, ?_, ?_, ?_⟩
  · unfold serverChunkDelay
    rw [if_neg (by decide : ¬ ((false : Bool) = true))]
    split_ifs <;> omega
  · unfold clientChunkDelay
    rw [if_pos hpos]
  · unfold clientChunkDelay
    rw [if_pos hpos, ← hmin]
    exact hget.1
  · unfold clientChunkDelay
    rw [if_pos hpos, ← hmax]
    exact hget.2

/-- C8 witness: base delay 5 ms, no observations; the server sleeps 5 ms
verbatim while the client consults `GetDelay` and stays inside the
default bounds. -/
theorem chunk_delay_disabled_spec_witness :
    (0 : ℤ) ≤ 5000000 ∧
    (serverChunkDelay false 5000000
        (runUpdates (NewNetworkStats false 0 0) []) = 5000000 ∧
    clientChunkDelay 5000000 (runUpdates (NewNetworkStats false 0 0) []) =
      GetDelay (runUpdates (NewNetworkStats false 0 0) []) 5000000 ∧
    DefaultMinDelay ≤
      clientChunkDelay 5000000 (runUpdates (NewNetworkStats false 0 0) []) ∧
    clientChunkDelay 5000000 (runUpdates (NewNetworkStats false 0 0) []) ≤
      DefaultMaxDelay) :=
  ⟨by decide, chunk_delay_disabled_spec 0 0 5000000 [] (by decide)⟩

theorem truncQ_intCast (n : ℤ) : truncQ ((n : ℤ) : ℚ) = n := by
  unfold truncQ
  split_ifs <;> simp

theorem preClampChunkSize_mem (rtt : ℤ) :
    512 * 1024 ≤ preClampChunkSize rtt ∧
      preClampChunkSize rtt ≤ 8 * 1024 * 1024 := by
  unfold preClampChunkSize applyMaxBound applyMinBound
  split_ifs <;> omega

/-- C9 counterexample: at an average RTT of 1.2 s the code computes a
6 MiB chunk size (the 1.5 adjustment is skipped because its product,
9 MiB, exceeds 8 MiB), while the claim's "product capped at 8 MiB"
formula yields 8 MiB. -/
theorem profileNetwork_not_capped :
    ProfileNetworkChunkSize 1200000000 = 6291456 ∧
    specOptimalChunkSize 1200000000 = 8388608 ∧
    ProfileNetworkChunkSize 1200000000 ≠ specOptimalChunkSize 1200000000 := by
  have hbw : estimateBandwidth 1200000000 = 5242880 := by
    norm_num [estimateBandwidth]
  have hbdpq : ((5242880 : ℤ) : ℚ) * (((1200000000 : ℤ) : ℚ) / 1000000000) =
      ((6291456 : ℤ) : ℚ) := by norm_num
  have hbdp : bdpChunkSize 1200000000 = 6291456 := by
    unfold bdpChunkSize
    rw [hbw, hbdpq, truncQ_intCast]
  have hpre : preClampChunkSize 1200000000 = 6291456 := by
    unfold preClampChunkSize
    rw [hbdp]
    norm_num [applyMinBound, applyMaxBound]
  have hprod : ((6291456 : ℤ) : ℚ) * 1.5 = ((9437184 : ℤ) : ℚ) := by norm_num
  have hinc : truncQ ((preClampChunkSize 1200000000 : ℚ) * 1.5) = 9437184 := by
    rw [hpre]
    rw [show (((6291456 : ℤ) : ℚ)) * 1.5 = ((9437184 : ℤ) : ℚ) from hprod,
      truncQ_intCast]
  have hgt : (1200000000 : ℤ) > 50 * 1000000 := by norm_num
  have h1 : ProfileNetworkChunkSize 1200000000 = 6291456 := by
    unfold ProfileNetworkChunkSize
    rw [hinc, if_pos hgt, if_neg (by norm_num), hpre]
  have h2 : specOptimalChunkSize 1200000000 = 8388608 := by
    unfold specOptimalChunkSize
    rw [hinc, if_pos hgt]
    norm_num
  exact ⟨h1, h2, by rw [h1, h2]; norm_num⟩

/-- C9 (amended): the profiler estimates bandwidth by the piecewise RTT
table, clamps the bandwidth-delay product into `[512 KiB, 8 MiB]`, and,
when RTT exceeds 50 ms, multiplies by 1.5 only if the product stays at
most 8 MiB — otherwise the pre-adjustment value is kept (the product is
not capped).  The result always stays within `[512 KiB, 8 MiB]`. -/
theorem profileNetwork_chunk_size_spec (rtt : ℤ) :
    (rtt < 10 * 1000000 → estimateBandwidth rtt = 50 * 1024 * 1024) ∧
    (10 * 1000000 ≤ rtt → rtt < 50 * 1000000 →
      estimateBandwidth rtt = 20 * 1024 * 1024) ∧
    (50 * 1000000 ≤ rtt → rtt < 100 * 1000000 →
      estimateBandwidth rtt = 10 * 1024 * 1024) ∧
    (100 * 1000000 ≤ rtt → estimateBandwidth rtt = 5 * 1024 * 1024) ∧
    (¬ rtt > 50 * 1000000 →
      ProfileNetworkChunkSize rtt = preClampChunkSize rtt) ∧
    (rtt > 50 * 1000000 →
      ProfileNetworkChunkSize rtt =
        if truncQ ((preClampChunkSize rtt : ℚ) * 1.5) ≤ 8 * 1024 * 1024 then
          truncQ ((preClampChunkSize rtt : ℚ) * 1.5)
        else preClampChunkSize rtt) ∧
    512 * 1024 ≤ ProfileNetworkChunkSize rtt ∧
    ProfileNetworkChunkSize rtt ≤ 8 * 1024 * 1024 := by
  have hpre := preClampChunkSize_mem rtt
  have hfloor : 512 * 1024 ≤ truncQ ((preClampChunkSize rtt : ℚ) * 1.5) := by
    have hp0 : (0 : ℚ) ≤ (preClampChunkSize rtt : ℚ) := by
      have := hpre.1
      exact_mod_cast le_trans (by norm_num) this
    have hple : (preClampChunkSize rtt : ℚ) ≤ (preClampChunkSize rtt : ℚ) * 1.5 := by
      nlinarith
    have h0 : (0 : ℚ) ≤ (preClampChunkSize rtt : ℚ) * 1.5 := le_trans hp0 hple
    unfold truncQ
    rw [if_pos h0]
    calc (512 * 1024 : ℤ) ≤ preClampChunkSize rtt := hpre.1
      _ = ⌊((preClampChunkSize rtt : ℤ) : ℚ)⌋ := (Int.floor_intCast _).symm
      _ ≤ ⌊(preClampChunkSize rtt : ℚ) * 1.5⌋ := Int.floor_le_floor hple
  refine ⟨?_, ?_, ?_, ?_, ?_, ?_, ?_, ?_⟩
  · intro h
    unfold estimateBandwidth
    rw [if_pos h]
  · intro h1 h2
    unfold estimateBandwidth
    rw [if_neg (by omega), if_pos h2]
  · intro h1 h2
    unfold estimateBandwidth
    rw [if_neg (by omega), if_neg (by omega), if_pos h2]
  · intro h
    unfold estimateBandwidth
    rw [if_neg (by omega), if_neg (by omega), if_neg (by omega)]
  · intro h
    unfold ProfileNetworkChunkSize
    rw [if_neg h]
  · intro h
    unfold ProfileNetworkChunkSize
    rw [if_pos h]
  · unfold ProfileNetworkChunkSize
    split_ifs <;> omega
  · unfold ProfileNetworkChunkSize
    split_ifs <;> omega

/-- C9 witness: at RTT = 60 ms the table row, the 1.5 adjustment branch,
and the global bounds are all concrete (10 MiB/s bandwidth; the clamped
BDP is 629145 bytes, raised to 512 KiB? no — kept; adjusted to 943718). -/
theorem profileNetwork_chunk_size_spec_witness :
    (¬ (60000000 : ℤ) < 10 * 1000000) ∧
    ((50 * 1000000 : ℤ) ≤ 60000000 ∧ (60000000 : ℤ) < 100 * 1000000 →
      estimateBandwidth 60000000 = 10 * 1024 * 1024) ∧
    512 * 1024 ≤ ProfileNetworkChunkSize 60000000 ∧
    ProfileNetworkChunkSize 60000000 ≤ 8 * 1024 * 1024 := by
  have h := profileNetwork_chunk_size_spec 60000000
  exact ⟨by decide, fun hh => h.2.2.1 hh.1 hh.2, h.2.2.2.2.2.2.1,
    h.2.2.2.2.2.2.2⟩

/-- C4 counterexample: a compressed chunk whose size field says 2 but
whose stream decompresses to the single byte `7` is accepted — the
receiver returns the 1-byte payload (which `receiveChunk` then writes at
the chunk's offset) instead of rejecting the chunk. -/
theorem decompress_size_not_checked :
    receiveCompressedChunk (fun _ => some [7]) [0] 2 = some [7] ∧
    ([7] : List ℕ).length ≠ 2 :=
  ⟨rfl, by decide⟩

/-- C4 (amended): whenever the gzip stream decodes successfully, the
receiver accepts the chunk and obtains the decompressed bytes truncated
to the pre-transmitted size; a decompressed length different from the
size field is not detected — in particular a short stream is accepted
as-is and its bytes are written at the chunk's offset, and an over-long
stream is silently truncated.  Only a corrupt stream is rejected. -/
theorem decompress_accepts_any_length (decode : List ℕ → Option (List ℕ))
    (compressedData : List ℕ) (expectedSize : ℕ) (d : List ℕ)
    (hdec : decode compressedData = some d) :
    receiveCompressedChunk decode compressedData expectedSize =
      some (d.take expectedSize) ∧
    (d.length ≤ expectedSize →
      receiveCompressedChunk decode compressedData expectedSize = some d) := by
  constructor
  · unfold receiveCompressedChunk DecompressData
    rw [hdec]
  · intro hlen
    unfold receiveCompressedChunk DecompressData
    rw [hdec]
    exact congrArg some (List.take_of_length_le hlen)

/-- C4 witness: a stream decoding to one byte against a size field of 2
is accepted unchanged. -/
theorem decompress_accepts_any_length_witness :
    (fun (_ : List ℕ) => some [7]) [0] = some [7] ∧
    receiveCompressedChunk (fun _ => some [7]) [0] 2 = some ([7].take 2) ∧
    (([7] : List ℕ).length ≤ 2 →
      receiveCompressedChunk (fun _ => some [7]) [0] 2 = some [7]) :=
  ⟨rfl, (decompress_accepts_any_length (fun _ => some [7]) [0] 2 [7] rfl).1,
    (decompress_accepts_any_length (fun _ => some [7]) [0] 2 [7] rfl).2⟩

/-- C5 counterexample: on a hash mismatch (client digest "aa", server
digest "bb", md5) the state file is NOT removed, contrary to the claim. -/
theorem hash_mismatch_state_not_removed :
    (handleFileTransferTail true "md5" "aa" "bb").stateFileRemoved = false ∧
    ¬ (handleFileTransferTail true "md5" "aa" "bb").stateFileRemoved = true := by
  constructor
  · rfl
  · intro h
    exact Bool.false_ne_true (by rw [← h]; rfl)

/-- C5 (amended): when the digests differ, the server sends first the
`Error` frame with exactly the message `Hash mismatch (<algo>):
source=<client_hex>, received=<server_hex>`, deletes the output file, and
fails the transfer without sending `Complete` — but the on-disk
transfer-state file is NOT removed on this path. -/
theorem hash_mismatch_spec (algo clientHash serverHash : String)
    (hne : clientHash ≠ serverHash) :
    (handleFileTransferTail true algo clientHash serverHash).errorFrames =
      [hashMismatchMessage algo clientHash serverHash,
        "Hash verification failed"] ∧
    (handleFileTransferTail true algo clientHash serverHash).outputDeleted =
      true ∧
    (handleFileTransferTail true algo clientHash serverHash).completeSent =
      false ∧
    (handleFileTransferTail true algo clientHash serverHash).stateFileRemoved =
      false := by
  unfold handleFileTransferTail
  rw [if_pos rfl, if_pos hne]
  exact ⟨rfl, rfl, rfl, rfl⟩

/-- C5 witness: the mismatch outcome at concrete digests "aa" vs "bb". -/
theorem hash_mismatch_spec_witness :
    ("aa" : String) ≠ "bb" ∧
    ((handleFileTransferTail true "md5" "aa" "bb").errorFrames =
      [hashMismatchMessage "md5" "aa" "bb", "Hash verification failed"] ∧
    (handleFileTransferTail true "md5" "aa" "bb").outputDeleted = true ∧
    (handleFileTransferTail true "md5" "aa" "bb").completeSent = false ∧
    (handleFileTransferTail true "md5" "aa" "bb").stateFileRemoved = false) :=
  ⟨by decide, hash_mismatch_spec "md5" "aa" "bb" (by decide)⟩

/-- C10 counterexample: a frame with `can_resume = 1` whose total-chunks
line parses to `-1` makes `ReadResumeInfo` panic in `make([]bool, -1)`
instead of returning a `ResumeInfo`. -/
theorem readResumeInfo_negative_total_panics :
    ReadResumeInfo 1 0 (-1) "" = ReadResumeResult.panicked ∧
    (ReadResumeInfo 1 0 (-1) "").isOk = false :=
  ⟨rfl, rfl⟩

theorem markCompleted_length (totalChunks : ℤ) (acc : List Bool)
    (entry : String) :
    (markCompleted totalChunks acc entry).length = acc.length := by
  unfold markCompleted
  rcases parseInt64 entry.trim with _ | idx
  · rfl
  · dsimp only
    split_ifs
    · exact List.length_set acc _ _
    · rfl

theorem markCompleted_true_source (totalChunks : ℤ) (acc : List Bool)
    (entry : String) (i : ℕ)
    (h : (markCompleted totalChunks acc entry).getD i false = true) :
    acc.getD i false = true ∨
      (parseInt64 entry.trim = some (i : ℤ) ∧ (i : ℤ) < totalChunks) := by
  unfold markCompleted at h
  rcases hp : parseInt64 entry.trim with _ | idx
  · rw [hp] at h
    exact Or.inl h
  · rw [hp] at h
    dsimp only at h
    by_cases hran : 0 ≤ idx ∧ idx < totalChunks
    · rw [if_pos hran] at h
      by_cases hij : i = idx.toNat
      · right
        have hii : ((i : ℤ)) = idx := by omega
        rw [hii]
        exact ⟨rfl, by omega⟩
      · left
        rw [List.getD_eq_getElem?_getD, List.getElem?_set_ne (by omega)] at h
        rw [List.getD_eq_getElem?_getD]
        exact h
    · rw [if_neg hran] at h
      exact Or.inl h

theorem foldl_markCompleted_spec (totalChunks : ℤ) (entries : List String)
    (acc : List Bool) :
    (entries.foldl (markCompleted totalChunks) acc).length = acc.length ∧
    ∀ i : ℕ,
      (entries.foldl (markCompleted totalChunks) acc).getD i false = true →
      acc.getD i false = true ∨
        ∃ e ∈ entries, parseInt64 e.trim = some (i : ℤ) ∧
          (i : ℤ) < totalChunks := by
  induction entries generalizing acc with
  | nil => exact ⟨rfl, fun i h => Or.inl h⟩
  | cons e rest ih =>
    have hstep := ih (markCompleted totalChunks acc e)
    refine ⟨hstep.1.trans (markCompleted_length totalChunks acc e), ?_⟩
    intro i h
    rcases hstep.2 i h with hacc | ⟨e', he', hp⟩
    · rcases markCompleted_true_source totalChunks acc e i hacc with h2 | h2
      · exact Or.inl h2
      · exact Or.inr ⟨e, List.mem_cons_self e rest, h2⟩
    · exact Or.inr ⟨e', List.mem_cons_of_mem e he', hp⟩

/-- C10 (amended): for every Resume payload with `can_resume = 1` whose
numeric lines parse AND whose total-chunks value is non-negative (a
negative value crashes in `make([]bool, n)`), `ReadResumeInfo` returns a
`ResumeInfo` whose bitmap has length exactly `TotalChunks` and in which
an index is true only if some comma-separated entry parses to it and it
lies in `[0, TotalChunks)`; malformed and out-of-range entries are
silently ignored. -/
theorem readResumeInfo_spec (resumeOffset totalChunks : ℤ)
    (chunkListStr : String) (htc : 0 ≤ totalChunks) :
    ∃ info, ReadResumeInfo 1 resumeOffset totalChunks chunkListStr =
        ReadResumeResult.ok info ∧
      info.canResume = true ∧
      info.totalChunks = totalChunks ∧
      (info.completedChunks.length : ℤ) = totalChunks ∧
      ∀ i : ℕ, info.completedChunks.getD i false = true →
        (i : ℤ) < totalChunks ∧
        ∃ e ∈ chunkListStr.splitOn ",", parseInt64 e.trim = some (i : ℤ) := by
  unfold ReadResumeInfo
  rw [if_pos rfl, if_neg (by omega)]
  refine ⟨_, rfl, rfl, rfl, ?_, ?_⟩
  · by_cases hs : chunkListStr ≠ ""
    · rw [if_pos hs]
      have h := foldl_markCompleted_spec totalChunks (chunkListStr.splitOn ",")
        (List.replicate totalChunks.toNat false)
      rw [h.1, List.length_replicate]
      omega
    · rw [if_neg hs]
      rw [List.length_replicate]
      omega
  · intro i h
    by_cases hs : chunkListStr ≠ ""
    · rw [if_pos hs] at h
      have hspec := foldl_markCompleted_spec totalChunks
        (chunkListStr.splitOn ",") (List.replicate totalChunks.toNat false)
      rcases hspec.2 i h with hbase | ⟨e, he, hp, hlt⟩
      · exfalso
        rw [List.getD_eq_getElem?_getD] at hbase
        rcases Nat.lt_or_ge i totalChunks.toNat with hi | hi
        · rw [List.getElem?_replicate_of_lt hi] at hbase
          simp at hbase
        · rw [List.getElem?_eq_none (by simpa using hi)] at hbase
          simp at hbase
      · exact ⟨hlt, e, he, hp⟩
    · rw [if_neg hs] at h
      exfalso
      rw [List.getD_eq_getElem?_getD] at h
      rcases Nat.lt_or_ge i totalChunks.toNat with hi | hi
      · rw [List.getElem?_replicate_of_lt hi] at h
        simp at h
      · rw [List.getElem?_eq_none (by simpa using hi)] at h
        simp at h

/-- C10 witness: three chunks with list `"0, 2,x,9"` — entries `0` and
`2` are set, `x` is malformed and `9` out of range, both silently
ignored. -/
theorem readResumeInfo_spec_witness :
    (0 : ℤ) ≤ 3 ∧
    (∃ info, ReadResumeInfo 1 0 3 "0, 2,x,9" = ReadResumeResult.ok info ∧
      info.canResume = true ∧
      info.totalChunks = 3 ∧
      (info.completedChunks.length : ℤ) = 3 ∧
      ∀ i : ℕ, info.completedChunks.getD i false = true →
        (i : ℤ) < 3 ∧
        ∃ e ∈ ("0, 2,x,9" : String).splitOn ",",
          parseInt64 e.trim = some (i : ℤ)) :=
  ⟨by decide, readResumeInfo_spec 0 3 "0, 2,x,9" (by decide)⟩

theorem retryLoop_mem (offset : ℕ) (outcome : ℕ → Bool) (attempt fuel : ℕ)
    (e : Event) (h : e ∈ (retryLoop offset outcome attempt fuel).1) :
    e = .request offset ∨ e = .dataReceived offset ∨ e = .dataFailed offset := by
  induction fuel generalizing attempt with
  | zero => simp [retryLoop] at h
  | succ fuel ih =>
    rw [retryLoop] at h
    by_cases ho : outcome attempt
    · rw [if_pos ho] at h
      simp only [List.mem_cons, List.not_mem_nil, or_false] at h
      rcases h with rfl | rfl
      · exact Or.inl rfl
      · exact Or.inr (Or.inl rfl)
    · rw [if_neg ho] at h
      simp only [List.mem_cons] at h
      rcases h with rfl | rfl | h
      · exact Or.inl rfl
      · exact Or.inr (Or.inr rfl)
      · exact ih (attempt + 1) h

theorem retryLoop_head (offset : ℕ) (outcome : ℕ → Bool) (attempt fuel : ℕ)
    (hf : 0 < fuel) :
    (retryLoop offset outcome attempt fuel).1.head? = some (.request offset) := by
  rcases fuel with _ | fuel
  · omega
  · rw [retryLoop]
    by_cases ho : outcome attempt
    · rw [if_pos ho]
      rfl
    · rw [if_neg ho]
      rfl

theorem retryLoop_last (offset : ℕ) (outcome : ℕ → Bool) (attempt fuel : ℕ) :
    ((retryLoop offset outcome attempt fuel).2 = true →
      (retryLoop offset outcome attempt fuel).1.getLast? =
        some (.dataReceived offset)) ∧
    ((retryLoop offset outcome attempt fuel).2 = false →
      (retryLoop offset outcome attempt fuel).1 = [] ∨
      (retryLoop offset outcome attempt fuel).1.getLast? =
        some (.dataFailed offset)) := by
  induction fuel generalizing attempt with
  | zero =>
    refine ⟨?_, ?_⟩
    · intro h
      simp [retryLoop] at h
    · intro _
      exact Or.inl rfl
  | succ fuel ih =>
    rw [retryLoop]
    by_cases ho : outcome attempt
    · rw [if_pos ho]
      refine ⟨fun _ => rfl, fun h => ?_⟩
      exact absurd h (by simp)
    · rw [if_neg ho]
      dsimp only
      have ihs := ih (attempt + 1)
      refine ⟨fun h2 => ?_, fun h2 => ?_⟩
      · have hlast := ihs.1 h2
        have hne : (retryLoop offset outcome (attempt + 1) fuel).1 ≠ [] := by
          intro hnil
          rw [hnil] at hlast
          exact Option.noConfusion hlast
        rcases hl : (retryLoop offset outcome (attempt + 1) fuel).1 with _ | ⟨c, t⟩
        · exact absurd hl hne
        · rw [hl] at hlast
          rw [List.getLast?_cons_cons, List.getLast?_cons_cons]
          exact hlast
      · rcases ihs.2 h2 with hnil | hlast
        · rw [hnil]
          right
          rfl
        · right
          rcases hl : (retryLoop offset outcome (attempt + 1) fuel).1 with _ | ⟨c, t⟩
          · rw [hl] at hlast
            exact Option.noConfusion hlast
          · rw [hl] at hlast
            rw [List.getLast?_cons_cons, List.getLast?_cons_cons]
            exact hlast

theorem retryLoop_chain (offset : ℕ) (outcome : ℕ → Bool) (attempt fuel : ℕ) :
    List.Chain' eventStep (retryLoop offset outcome attempt fuel).1 := by
  induction fuel generalizing attempt with
  | zero => simp [retryLoop]
  | succ fuel ih =>
    rw [retryLoop]
    by_cases ho : outcome attempt
    · rw [if_pos ho]
      exact List.chain'_cons.mpr ⟨rfl, List.chain'_singleton _⟩
    · rw [if_neg ho]
      dsimp only
      refine List.chain'_cons.mpr ⟨rfl, ?_⟩
      refine List.chain'_cons'.mpr ⟨?_, ih (attempt + 1)⟩
      intro y hy
      rcases fuel with _ | fuel
      · simp [retryLoop] at hy
      · rw [retryLoop_head offset outcome (attempt + 1) (fuel + 1) (by omega)]
          at hy
        cases hy
        rfl

theorem processChunksTrace_request_offsets (chunkSize retries : ℕ)
    (outcome : ℕ → ℕ → Bool) (k : ℕ) (l : List Bool) (o : ℕ)
    (h : Event.request o ∈ processChunksTrace chunkSize retries outcome k l) :
    ∃ j, o = (k + j) * chunkSize ∧ j < l.length ∧ l.getD j false = false := by
  induction l generalizing k with
  | nil => simp [processChunksTrace] at h
  | cons b rest ih =>
    rw [processChunksTrace] at h
    by_cases hb : b = true
    · rw [if_pos hb] at h
      rcases ih (k + 1) h with ⟨j, hj1, hj2, hj3⟩
      refine ⟨j + 1, ?_, by simpa using hj2, ?_⟩
      · rw [hj1]
        congr 1
        omega
      · simpa using hj3
    · rw [if_neg hb] at h
      have hmem : ∀ e ∈ (retryLoop (k * chunkSize) (outcome k) 0 retries).1,
          e = Event.request o → o = k * chunkSize := by
        intro e he heq
        subst heq
        rcases retryLoop_mem _ _ _ _ _ he with hr | hr | hr
        · cases hr
          rfl
        · exact Event.noConfusion hr
        · exact Event.noConfusion hr
      by_cases hr2 : (retryLoop (k * chunkSize) (outcome k) 0 retries).2 = true
      · rw [if_pos hr2] at h
        rcases List.mem_append.mp h with hin | hin
        · refine ⟨0, ?_, by simp, by simp [Bool.eq_false_iff.mpr hb]⟩
          rw [hmem _ hin rfl, Nat.add_zero]
        · rcases ih (k + 1) hin with ⟨j, hj1, hj2, hj3⟩
          refine ⟨j + 1, ?_, by simpa using hj2, ?_⟩
          · rw [hj1]
            congr 1
            omega
          · simpa using hj3
      · rw [if_neg hr2] at h
        refine ⟨0, ?_, by simp, by simp [Bool.eq_false_iff.mpr hb]⟩
        rw [hmem _ h rfl, Nat.add_zero]

theorem processChunksTrace_head (chunkSize retries : ℕ)
    (outcome : ℕ → ℕ → Bool) (k : ℕ) (l : List Bool) (e : Event)
    (h : (processChunksTrace chunkSize retries outcome k l).head? = some e) :
    ∃ j, k ≤ j ∧ e = .request (j * chunkSize) := by
  induction l generalizing k with
  | nil => exact Option.noConfusion h
  | cons b rest ih =>
    rw [processChunksTrace] at h
    by_cases hb : b = true
    · rw [if_pos hb] at h
      rcases ih (k + 1) h with ⟨j, hj1, hj2⟩
      exact ⟨j, by omega, hj2⟩
    · rw [if_neg hb] at h
      rcases retries with _ | r
      · rw [show retryLoop (k * chunkSize) (outcome k) 0 0 = ([], false) from rfl]
          at h
        simp at h
      · have hhead := retryLoop_head (k * chunkSize) (outcome k) 0 (r + 1)
          (by omega)
        by_cases hr2 : (retryLoop (k * chunkSize) (outcome k) 0 (r + 1)).2 = true
        · rw [if_pos hr2] at h
          rcases hl : (retryLoop (k * chunkSize) (outcome k) 0 (r + 1)).1
            with _ | ⟨c, t⟩
          · rw [hl] at hhead
            exact Option.noConfusion hhead
          · rw [hl] at h hhead
            rw [List.cons_append, List.head?_cons] at h
            cases h
            cases hhead
            exact ⟨k, le_refl k, rfl⟩
        · rw [if_neg hr2] at h
          rw [hhead] at h
          cases h
          exact ⟨k, le_refl k, rfl⟩

theorem processChunksTrace_chain (chunkSize retries : ℕ)
    (outcome : ℕ → ℕ → Bool) (hcs : 0 < chunkSize) (k : ℕ) (l : List Bool) :
    List.Chain' eventStep (processChunksTrace chunkSize retries outcome k l) := by
  induction l generalizing k with
  | nil => simp [processChunksTrace]
  | cons b rest ih =>
    rw [processChunksTrace]
    by_cases hb : b = true
    · rw [if_pos hb]
      exact ih (k + 1)
    · rw [if_neg hb]
      by_cases hr2 : (retryLoop (k * chunkSize) (outcome k) 0 retries).2 = true
      · rw [if_pos hr2]
        refine List.Chain'.append (retryLoop_chain _ _ _ _) (ih (k + 1)) ?_
        intro x hx y hy
        have hlast := (retryLoop_last (k * chunkSize) (outcome k) 0 retries).1 hr2
        rw [hlast] at hx
        cases hx
        rcases processChunksTrace_head chunkSize retries outcome (k + 1) rest y
          (by simpa using hy) with ⟨j, hj1, hj2⟩
        subst hj2
        show k * chunkSize < j * chunkSize
        have : k < j := by omega
        exact (Nat.mul_lt_mul_right hcs).mpr this
      · rw [if_neg hr2]
        exact retryLoop_chain _ _ _ _

/-- C2: in the chunk-transfer loop the server (1) never sends a `Request`
for a chunk whose `chunks_received` bit was true at loop start, (2) every
`Request` it sends is at `offset = i * chunkSize` for some in-range chunk
`i` whose bit was false, and (3) the event trace is step-disciplined: each
`Request` is immediately followed by its own completion before anything
else happens (at most one outstanding request), a failed attempt is
followed only by a retry of the same offset, and a completed chunk is
followed only by a `Request` at a strictly larger offset (strictly
ascending order). -/
theorem processChunks_request_discipline (chunkSize retries : ℕ)
    (outcome : ℕ → ℕ → Bool) (received : List Bool) (hcs : 0 < chunkSize) :
    (∀ i : ℕ, received.getD i false = true →
      Event.request (i * chunkSize) ∉
        processChunksTrace chunkSize retries outcome 0 received) ∧
    (∀ o, Event.request o ∈
        processChunksTrace chunkSize retries outcome 0 received →
      ∃ i, o = i * chunkSize ∧ i < received.length ∧
        received.getD i false = false) ∧
    List.Chain' eventStep
      (processChunksTrace chunkSize retries outcome 0 received) := by
  have hoff : ∀ o, Event.request o ∈
      processChunksTrace chunkSize retries outcome 0 received →
      ∃ i, o = i * chunkSize ∧ i < received.length ∧
        received.getD i false = false := by
    intro o h
    rcases processChunksTrace_request_offsets chunkSize retries outcome 0
      received o h with ⟨j, hj1, hj2, hj3⟩
    exact ⟨j, by simpa using hj1, hj2, hj3⟩
  refine ⟨?_, hoff, processChunksTrace_chain chunkSize retries outcome hcs 0
    received⟩
  intro i hend hmem
  rcases hoff (i * chunkSize) hmem with ⟨j, hj1, hj2, hj3⟩
  have hij : i = j := Nat.eq_of_mul_eq_mul_right hcs hj1
  rw [hij, hj3] at hend
  exact Bool.false_ne_true hend

/-- C2 witness: three chunks of size 2 with the first already received:
chunk 1 fails once then succeeds, chunk 2 succeeds immediately; the
resulting trace satisfies the discipline. -/
theorem processChunks_request_discipline_witness :
    0 < 2 ∧
    ((∀ i : ℕ, [true, false, false].getD i false = true →
      Event.request (i * 2) ∉
        processChunksTrace 2 3 (fun i a => decide (i ≠ 1 ∨ 0 < a)) 0
          [true, false, false]) ∧
    (∀ o, Event.request o ∈
        processChunksTrace 2 3 (fun i a => decide (i ≠ 1 ∨ 0 < a)) 0
          [true, false, false] →
      ∃ i, o = i * 2 ∧ i < ([true, false, false] : List Bool).length ∧
        [true, false, false].getD i false = false) ∧
    List.Chain' eventStep
      (processChunksTrace 2 3 (fun i a => decide (i ≠ 1 ∨ 0 < a)) 0
        [true, false, false])) :=
  ⟨by decide,
   processChunks_request_discipline 2 3 (fun i a => decide (i ≠ 1 ∨ 0 < a))
     [true, false, false] (by decide)⟩

end JDC
